import Mathlib

/-!
Shallow embedding of the p2p wire-framing layer of the repository
(src/p2p/messages.go and src/p2p/protocol.go).

Byte streams are modelled as `List Nat`, one octet per entry; readers
consume from the front.  `io.LimitReader r n` is modelled by running a
decoder on `s.take n`: every byte the decoder consumes from the limited
view is exactly one byte consumed from the underlying stream, so the
underlying stream after the call is `s.drop k` where `k` is the number of
bytes the decoder consumed from the view.

Every decoder returns the receiver after the call (Go mutates the
receiver in place, so after a failed call it may hold fields that were
populated before the failure), the remaining bytes of its reader, and
the returned error (`none` means success).
-/

/-- Big-endian encoding of the low `w` bytes of `x`, modelling
`encoding/binary` with `binary.BigEndian`; the `% 256 ^ w` implicit in
the recursion is the `uintN(x)` truncation of the source. -/
def beBytes : Nat → Nat → List Nat
  | 0, _ => []
  | w + 1, x => beBytes w (x / 256) ++ [x % 256]

/-- Value of a big-endian byte sequence. -/
def beVal (bs : List Nat) : Nat :=
  bs.foldl (fun acc b => acc * 256 + b) 0

/-- Errors returned by the layer: `eof` stands for any io read failure
(EOF or ErrUnexpectedEOF); each other constructor corresponds to one
`errors.New` site in the source. -/
inductive PErr where
  | eof
  | invalidMagic
  | unexpectedType
  | tooBigMsg
  | invalidMessageLen
  | invalidPeersCount
deriving DecidableEq

/-- Model of `io.ReadFull`: read exactly `n` bytes or fail; on failure
everything available (up to `n` bytes) has been consumed from the
reader. -/
def readFull (n : Nat) (s : List Nat) : Except PErr (List Nat) × List Nat :=
  if n ≤ s.length then (.ok (s.take n), s.drop n) else (.error .eof, s.drop n)

/-- Model of `binary.Read` of a `w`-byte big-endian unsigned integer:
it fills an internal buffer with `io.ReadFull` and decodes it; on a read
failure the target variable is left unchanged. -/
def readUintBE (w : Nat) (s : List Nat) : Except PErr Nat × List Nat :=
  match readFull w s with
  | (.ok bs, r) => (.ok (beVal bs), r)
  | (.error e, r) => (.error e, r)

/-- Outcome of a `Read` method: the receiver after the call, the
remaining bytes of the reader, and the returned error. -/
structure ReadOut (α : Type) where
  val : α
  rest : List Nat
  err : Option PErr
deriving DecidableEq

/-- The fixed 2-byte magic (`consensus.MagicCode`; the consensus file
declaring it is not under src).  The value is pinned by
`Header.ValidateMagic` in src: `magic[0] == 0x1e && magic[1] == 0xc5`. -/
def MagicCode : List Nat := [0x1e, 0xc5]

/-- Modelled from the spec: `consensus.HeaderLen` (not under src), the
fixed header wire width `magic[2] | type[1] | length[8]`, 11 bytes. -/
def HeaderLen : Nat := 11

/-- Modelled from the spec: `consensus.MaxMsgLen` (not under src), the
configured maximum message length; the theorems below do not depend on
the particular value. -/
def MaxMsgLen : Nat := 20000000

/-- Modelled from the spec: the p2p constant `maxStringLength` (not
under src), the configured maximum length of a PeerError message; the
theorems below do not depend on the particular value. -/
def maxStringLength : Nat := 1024

/-- Modelled from the spec: the p2p constant `maxPeerAddresses` (not
under src), the configured maximum PeerAddrs entry count. -/
def maxPeerAddresses : Nat := 256

/-- Modelled from the spec: the message type tags (p2p constants, not
under src).  The ping tag is 0x00 per the concrete scenario of the
spec; the others need only be stable and distinct. -/
def msgTypePing : Nat := 0

def msgTypePong : Nat := 1

def msgTypeGetPeerAddrs : Nat := 2

def msgTypePeerAddrs : Nat := 3

def msgTypeError : Nat := 4

/-- Header of any protocol message.  The Go field `Type` is called `Typ`
here because `Type` is a Lean keyword. -/
structure Header where
  magic : List Nat
  Typ : Nat
  Len : Nat
deriving DecidableEq

/-- `Header.ValidateMagic`: both magic bytes must match the fixed
constant. -/
def Header.ValidateMagic (h : Header) : Bool :=
  h.magic.getD 0 0 == 0x1e && h.magic.getD 1 0 == 0xc5

/-- `Header.Write`: the 2 magic bytes, the 1-byte type, the 8-byte
big-endian length, in that order. -/
def Header.Write (h : Header) : List Nat :=
  h.magic ++ beBytes 1 h.Typ ++ beBytes 8 h.Len

/-- `Header.Read`: 2 magic bytes via `io.ReadFull`, magic validation,
then the type byte and the 8-byte big-endian length. -/
def Header.Read (h : Header) (s : List Nat) : ReadOut Header :=
  match readFull 2 s with
  | (.error e, r) => ⟨h, r, some e⟩
  | (.ok m, r1) =>
    let h1 : Header := { h with magic := m }
    if h1.ValidateMagic then
      match readUintBE 1 r1 with
      | (.error e, r) => ⟨h1, r, some e⟩
      | (.ok t, r2) =>
        let h2 : Header := { h1 with Typ := t }
        match readUintBE 8 r2 with
        | (.error e, r) => ⟨h2, r, some e⟩
        | (.ok l, r3) => ⟨{ h2 with Len := l }, r3, none⟩
    else ⟨h1, r1, some .invalidMagic⟩

/-- Ping request; `TotalDifficulty` has type `consensus.Difficulty`, a
uint64, and `Height` is a uint64. -/
structure Ping where
  TotalDifficulty : Nat
  Height : Nat
deriving DecidableEq

/-- `Ping.Bytes`: two 8-byte big-endian fields. -/
def Ping.Bytes (p : Ping) : List Nat :=
  beBytes 8 p.TotalDifficulty ++ beBytes 8 p.Height

/-- `Ping.Read`: `binary.Read` writes a field only on success, so the
first field may already be updated when the second read fails. -/
def Ping.Read (p : Ping) (s : List Nat) : ReadOut Ping :=
  match readUintBE 8 s with
  | (.error e, r) => ⟨p, r, some e⟩
  | (.ok td, r1) =>
    match readUintBE 8 r1 with
    | (.error e, r) => ⟨{ p with TotalDifficulty := td }, r, some e⟩
    | (.ok ht, r2) => ⟨{ TotalDifficulty := td, Height := ht }, r2, none⟩

/-- GetPeerAddrs request; `Capabilities` is a uint32 bitmask. -/
structure GetPeerAddrs where
  Capabilities : Nat
deriving DecidableEq

/-- `GetPeerAddrs.Bytes`: one 4-byte big-endian field. -/
def GetPeerAddrs.Bytes (g : GetPeerAddrs) : List Nat :=
  beBytes 4 g.Capabilities

/-- `GetPeerAddrs.Read`. -/
def GetPeerAddrs.Read (g : GetPeerAddrs) (s : List Nat) : ReadOut GetPeerAddrs :=
  match readUintBE 4 s with
  | (.error e, r) => ⟨g, r, some e⟩
  | (.ok c, r1) => ⟨{ Capabilities := c }, r1, none⟩

/-- PeerError; `Message` holds the bytes of the Go string. -/
structure PeerError where
  Code : Nat
  Message : List Nat
deriving DecidableEq

/-- `PeerError.Bytes`: 4-byte code, 8-byte big-endian message length,
then the raw message bytes. -/
def PeerError.Bytes (p : PeerError) : List Nat :=
  beBytes 4 p.Code ++ beBytes 8 p.Message.length ++ p.Message

/-- `PeerError.Read`: code, declared message length, ceiling check
before the message bytes are read, then the message bytes. -/
def PeerError.Read (p : PeerError) (s : List Nat) : ReadOut PeerError :=
  match readUintBE 4 s with
  | (.error e, r) => ⟨p, r, some e⟩
  | (.ok c, r1) =>
    let p1 : PeerError := { p with Code := c }
    match readUintBE 8 r1 with
    | (.error e, r) => ⟨p1, r, some e⟩
    | (.ok messageLen, r2) =>
      if messageLen > maxStringLength then ⟨p1, r2, some .invalidMessageLen⟩
      else
        match readFull messageLen r2 with
        | (.error e, r) => ⟨p1, r, some e⟩
        | (.ok buff, r3) => ⟨{ p1 with Message := buff }, r3, none⟩

/-- `net.TCPAddr` restricted to the two fields that cross the wire; the
Go port field is an `int`, truncated to uint16 by the encoder. -/
structure TCPAddr where
  IP : List Nat
  Port : Nat
deriving DecidableEq

/-- PeerAddrs response. -/
structure PeerAddrs where
  peers : List TCPAddr
deriving DecidableEq

/-- One entry of `PeerAddrs.Bytes`: a 1-byte family flag (0 for a
4-byte address, 1 for a 16-byte address), the raw address bytes, and
the port truncated to a 2-byte big-endian value.  `none` models the
`logrus.Fatal` (process abort) on an address of any other length. -/
def addrBytes (a : TCPAddr) : Option (List Nat) :=
  if a.IP.length = 4 then some (0 :: (a.IP ++ beBytes 2 a.Port))
  else if a.IP.length = 16 then some (1 :: (a.IP ++ beBytes 2 a.Port))
  else none

/-- Concatenation of the entries of `PeerAddrs.Bytes`. -/
def peersBytes : List TCPAddr → Option (List Nat)
  | [] => some []
  | a :: rest =>
    match addrBytes a, peersBytes rest with
    | some x, some y => some (x ++ y)
    | _, _ => none

/-- `PeerAddrs.Bytes`: the uint32 entry count then the entries. -/
def PeerAddrs.Bytes (p : PeerAddrs) : Option (List Nat) :=
  match peersBytes p.peers with
  | some bs => some (beBytes 4 p.peers.length ++ bs)
  | none => none

/-- The loop of `PeerAddrs.Read`: each decoded entry is appended to the
receiver list as the source does, so entries decoded before a failure
stay appended. -/
def readPeersLoop : Nat → List TCPAddr → List Nat → ReadOut (List TCPAddr)
  | 0, acc, s => ⟨acc, s, none⟩
  | n + 1, acc, s =>
    match readUintBE 1 s with
    | (.error e, r) => ⟨acc, r, some e⟩
    | (.ok ipFlag, r1) =>
      let ipLen := if ipFlag = 0 then 4 else 16
      match readFull ipLen r1 with
      | (.error e, r) => ⟨acc, r, some e⟩
      | (.ok ipAddr, r2) =>
        match readUintBE 2 r2 with
        | (.error e, r) => ⟨acc, r, some e⟩
        | (.ok ipPort, r3) =>
          readPeersLoop n (acc ++ [{ IP := ipAddr, Port := ipPort }]) r3

/-- `PeerAddrs.Read`: uint32 count, ceiling check before any entry is
read, then the entries. -/
def PeerAddrs.Read (p : PeerAddrs) (s : List Nat) : ReadOut PeerAddrs :=
  match readUintBE 4 s with
  | (.error e, r) => ⟨p, r, some e⟩
  | (.ok peersCount, r1) =>
    if peersCount > maxPeerAddresses then ⟨p, r1, some .invalidPeersCount⟩
    else
      let o := readPeersLoop peersCount p.peers r1
      ⟨{ peers := o.val }, o.rest, o.err⟩

/-- The `Message` interface as a sum over the five variants; `pong`
carries a `Ping` value, as the Go `Pong` embeds `Ping` and overrides
only the type tag. -/
inductive Msg where
  | ping (p : Ping)
  | pong (p : Ping)
  | getPeerAddrs (g : GetPeerAddrs)
  | peerAddrs (p : PeerAddrs)
  | peerError (e : PeerError)
deriving DecidableEq

/-- The `Type()` method of each variant. -/
def Msg.Typ : Msg → Nat
  | .ping _ => msgTypePing
  | .pong _ => msgTypePong
  | .getPeerAddrs _ => msgTypeGetPeerAddrs
  | .peerAddrs _ => msgTypePeerAddrs
  | .peerError _ => msgTypeError

/-- The `Bytes()` method of each variant; `none` models the process
abort inside `PeerAddrs.Bytes` on an invalid address length. -/
def Msg.Bytes : Msg → Option (List Nat)
  | .ping p => some p.Bytes
  | .pong p => some p.Bytes
  | .getPeerAddrs g => some g.Bytes
  | .peerAddrs p => p.Bytes
  | .peerError e => some e.Bytes

/-- The `Read` method of each variant, lifted to the sum. -/
def Msg.Read : Msg → List Nat → ReadOut Msg
  | .ping p, s =>
    let o := p.Read s
    ⟨.ping o.val, o.rest, o.err⟩
  | .pong p, s =>
    let o := p.Read s
    ⟨.pong o.val, o.rest, o.err⟩
  | .getPeerAddrs g, s =>
    let o := g.Read s
    ⟨.getPeerAddrs o.val, o.rest, o.err⟩
  | .peerAddrs p, s =>
    let o := p.Read s
    ⟨.peerAddrs o.val, o.rest, o.err⟩
  | .peerError e, s =>
    let o := e.Read s
    ⟨.peerError o.val, o.rest, o.err⟩

/-- `WriteMessage`: the body bytes, a header carrying the body length,
then header and body on the wire; the count returned to the caller is
the body length plus `HeaderLen`.  The writer is a `bytes`-style sink
that cannot fail; `none` models the process abort inside `Bytes`. -/
def WriteMessage (msg : Msg) : Option (List Nat × Nat) :=
  match msg.Bytes with
  | none => none
  | some data =>
    let header : Header := { magic := MagicCode, Typ := msg.Typ, Len := data.length }
    some (header.Write ++ data, data.length + HeaderLen)

/-- Outcome of `ReadMessage`: the message after the call, the returned
byte count, the underlying stream after the call, and the error. -/
structure RMOut where
  msg : Msg
  n : Nat
  rest : List Nat
  err : Option PErr
deriving DecidableEq

/-- `ReadMessage`: the header from a `HeaderLen`-limited view of the
stream, the type check, the size ceiling, then the body decoder on a
`header.Len`-limited view; the limited views pass consumption through
to the underlying stream. -/
def ReadMessage (msg : Msg) (s : List Nat) : RMOut :=
  let hview := s.take HeaderLen
  let ho := Header.Read { magic := [0, 0], Typ := 0, Len := 0 } hview
  let c1 := hview.length - ho.rest.length
  match ho.err with
  | some e => ⟨msg, 0, s.drop c1, some e⟩
  | none =>
    if ho.val.Typ ≠ msg.Typ then ⟨msg, HeaderLen, s.drop c1, some .unexpectedType⟩
    else if ho.val.Len > MaxMsgLen then ⟨msg, HeaderLen, s.drop c1, some .tooBigMsg⟩
    else
      let bview := (s.drop c1).take ho.val.Len
      let bo := Msg.Read msg bview
      let c2 := bview.length - bo.rest.length
      ⟨bo.val, HeaderLen + ho.val.Len, s.drop (c1 + c2), bo.err⟩

theorem beBytes_length (w x : Nat) : (beBytes w x).length = w := by
  induction w generalizing x with
  | zero => rfl
  | succ w ih => simp [beBytes, ih]

theorem beVal_append (l : List Nat) (b : Nat) :
    beVal (l ++ [b]) = beVal l * 256 + b := by
  simp [beVal, List.foldl_append]

theorem beVal_beBytes (w x : Nat) : beVal (beBytes w x) = x % 256 ^ w := by
  induction w generalizing x with
  | zero => simp [beBytes, beVal, Nat.mod_one]
  | succ w ih =>
    rw [beBytes, beVal_append, ih, Nat.pow_succ', Nat.mod_mul]
    ring

theorem readFull_append (a b : List Nat) : readFull a.length (a ++ b) = (.ok a, b) := by
  unfold readFull
  rw [if_pos (by simp), List.take_left, List.drop_left]

theorem readFull_of_length_eq (n : Nat) (a b : List Nat) (h : a.length = n) :
    readFull n (a ++ b) = (.ok a, b) := by
  subst h
  exact readFull_append a b

theorem readUintBE_beBytes (w x : Nat) (tl : List Nat) :
    readUintBE w (beBytes w x ++ tl) = (.ok (x % 256 ^ w), tl) := by
  simp [readUintBE, readFull_of_length_eq w _ tl (beBytes_length w x), beVal_beBytes]

theorem readUintBE_cons (b : Nat) (tl : List Nat) :
    readUintBE 1 (b :: tl) = (.ok b, tl) := by
  have h : readFull 1 (b :: tl) = (.ok [b], tl) := readFull_of_length_eq 1 [b] tl rfl
  simp [readUintBE, h, beVal]

theorem readFull_ok_inv {n : Nat} {s a r : List Nat}
    (h : readFull n s = (.ok a, r)) :
    n ≤ s.length ∧ a = s.take n ∧ r = s.drop n := by
  unfold readFull at h
  split at h
  · simp only [Prod.mk.injEq, Except.ok.injEq] at h
    exact ⟨by assumption, h.1.symm, h.2.symm⟩
  · simp at h

theorem readFull_err_inv {n : Nat} {s r : List Nat} {e : PErr}
    (h : readFull n s = (.error e, r)) :
    s.length < n ∧ e = .eof ∧ r = s.drop n := by
  unfold readFull at h
  split at h
  · simp at h
  · simp only [Prod.mk.injEq, Except.error.injEq] at h
    exact ⟨by omega, h.1.symm, h.2.symm⟩

theorem readUintBE_ok_inv {w : Nat} {s r : List Nat} {x : Nat}
    (h : readUintBE w s = (.ok x, r)) :
    w ≤ s.length ∧ x = beVal (s.take w) ∧ r = s.drop w := by
  unfold readUintBE at h
  split at h
  · rename_i bs r0 heq
    simp only [Prod.mk.injEq, Except.ok.injEq] at h
    obtain ⟨h1, h2, h3⟩ := readFull_ok_inv heq
    exact ⟨h1, by rw [← h.1, h2], by rw [← h.2, h3]⟩
  · simp at h

theorem readUintBE_err_inv {w : Nat} {s r : List Nat} {e : PErr}
    (h : readUintBE w s = (.error e, r)) :
    s.length < w ∧ e = .eof ∧ r = s.drop w := by
  unfold readUintBE at h
  split at h
  · simp at h
  · rename_i e0 r0 heq
    simp only [Prod.mk.injEq, Except.error.injEq] at h
    obtain ⟨h1, h2, h3⟩ := readFull_err_inv heq
    exact ⟨h1, by rw [← h.1, h2], by rw [← h.2, h3]⟩

theorem pow_256_8 : (256 : Nat) ^ 8 = 2 ^ 64 := by norm_num

theorem pow_256_4 : (256 : Nat) ^ 4 = 2 ^ 32 := by norm_num

theorem pow_256_2 : (256 : Nat) ^ 2 = 2 ^ 16 := by norm_num

theorem readFull_two (a b : Nat) (r : List Nat) :
    readFull 2 (a :: b :: r) = (.ok [a, b], r) := by
  simp [readFull]

/-- Parsing a well-formed header prefix: the fixed magic, any type
byte, any in-range length. -/
theorem Header.Read_wf (h0 : Header) (t L : Nat) (tl : List Nat) (hL : L < 2 ^ 64) :
    Header.Read h0 (MagicCode ++ t :: beBytes 8 L ++ tl) =
      ⟨{ magic := MagicCode, Typ := t, Len := L }, tl, none⟩ := by
  have hmod : L % 256 ^ 8 = L := Nat.mod_eq_of_lt (pow_256_8 ▸ hL)
  simp [Header.Read, MagicCode, readFull_two, Header.ValidateMagic, readUintBE_cons,
    readUintBE_beBytes, hmod]
  omega

theorem take_header (t L : Nat) (tl : List Nat) :
    (MagicCode ++ t :: beBytes 8 L ++ tl).take HeaderLen = MagicCode ++ t :: beBytes 8 L := by
  have hl : (MagicCode ++ t :: beBytes 8 L).length = HeaderLen := by
    simp [MagicCode, beBytes_length, HeaderLen]
  have hs : MagicCode ++ t :: beBytes 8 L ++ tl = (MagicCode ++ t :: beBytes 8 L) ++ tl := by
    simp
  rw [hs, List.take_left' hl]

theorem drop_header (t L : Nat) (tl : List Nat) :
    (MagicCode ++ t :: beBytes 8 L ++ tl).drop HeaderLen = tl := by
  have hl : (MagicCode ++ t :: beBytes 8 L).length = HeaderLen := by
    simp [MagicCode, beBytes_length, HeaderLen]
  have hs : MagicCode ++ t :: beBytes 8 L ++ tl = (MagicCode ++ t :: beBytes 8 L) ++ tl := by
    simp
  rw [hs, List.drop_left' hl]

theorem Header.Read_wf_nil (h0 : Header) (t L : Nat) (hL : L < 2 ^ 64) :
    Header.Read h0 (MagicCode ++ t :: beBytes 8 L) =
      ⟨{ magic := MagicCode, Typ := t, Len := L }, [], none⟩ := by
  have h := Header.Read_wf h0 t L [] hL
  simpa using h

theorem headerBytes_length (t L : Nat) :
    (MagicCode ++ t :: beBytes 8 L).length = HeaderLen := by
  simp [MagicCode, beBytes_length, HeaderLen]

theorem ReadMessage_mismatch (msg : Msg) (t L : Nat) (body : List Nat)
    (hL : L < 2 ^ 64) (hne : t ≠ msg.Typ) :
    ReadMessage msg (MagicCode ++ t :: beBytes 8 L ++ body) =
      ⟨msg, HeaderLen, body, some .unexpectedType⟩ := by
  simp only [ReadMessage, take_header, Header.Read_wf_nil _ _ _ hL,
    headerBytes_length, List.length_nil, Nat.sub_zero, drop_header]
  simp [hne]

theorem ReadMessage_tooBig (msg : Msg) (L : Nat) (body : List Nat)
    (hL : L < 2 ^ 64) (hbig : L > MaxMsgLen) :
    ReadMessage msg (MagicCode ++ msg.Typ :: beBytes 8 L ++ body) =
      ⟨msg, HeaderLen, body, some .tooBigMsg⟩ := by
  simp only [ReadMessage, take_header, Header.Read_wf_nil _ _ _ hL,
    headerBytes_length, List.length_nil, Nat.sub_zero, drop_header]
  simp [hbig]

theorem ReadMessage_body (msg : Msg) (L : Nat) (body : List Nat)
    (hL : L < 2 ^ 64) (hok : L ≤ MaxMsgLen) :
    ReadMessage msg (MagicCode ++ msg.Typ :: beBytes 8 L ++ body) =
      ⟨(Msg.Read msg (body.take L)).val, HeaderLen + L,
        body.drop ((body.take L).length - (Msg.Read msg (body.take L)).rest.length),
        (Msg.Read msg (body.take L)).err⟩ := by
  have hdrop : ∀ k, (MagicCode ++ msg.Typ :: beBytes 8 L ++ body).drop (HeaderLen + k) =
      body.drop k := by
    intro k
    have hs : MagicCode ++ msg.Typ :: beBytes 8 L ++ body =
        (MagicCode ++ msg.Typ :: beBytes 8 L) ++ body := by simp
    rw [hs, ← headerBytes_length msg.Typ L, ← List.drop_drop, List.drop_left]
  simp only [ReadMessage, take_header, Header.Read_wf_nil _ _ _ hL,
    headerBytes_length, List.length_nil, Nat.sub_zero, drop_header, hdrop]
  simp [Nat.not_lt.mpr hok]

theorem mod_pow64 (x : Nat) (h : x < 2 ^ 64) : x % 18446744073709551616 = x :=
  Nat.mod_eq_of_lt (by simpa using h)

theorem mod_pow32 (x : Nat) (h : x < 2 ^ 32) : x % 4294967296 = x :=
  Nat.mod_eq_of_lt (by simpa using h)

theorem mod_pow16 (x : Nat) (h : x < 2 ^ 16) : x % 65536 = x :=
  Nat.mod_eq_of_lt (by simpa using h)

theorem ping_read_roundtrip (p0 p : Ping) (tl : List Nat)
    (h1 : p.TotalDifficulty < 2 ^ 64)(h2 : p.Height < 2 ^ 64) :
    Ping.Read p0 (p.Bytes ++ tl) = ⟨p, tl, none⟩ := by
  simp [Ping.Read, Ping.Bytes, List.append_assoc, readUintBE_beBytes,
    mod_pow64 _ h1, mod_pow64 _ h2]

theorem getPeerAddrs_read_roundtrip (g0 g : GetPeerAddrs) (tl : List Nat)
    (h1 : g.Capabilities < 2 ^ 32) :
    GetPeerAddrs.Read g0 (g.Bytes ++ tl) = ⟨g, tl, none⟩ := by
  simp [GetPeerAddrs.Read, GetPeerAddrs.Bytes, readUintBE_beBytes, mod_pow32 _ h1]

theorem peerError_read_roundtrip (p0 p : PeerError) (tl : List Nat)
    (hc : p.Code < 2 ^ 32) (hm : p.Message.length ≤ maxStringLength) :
    PeerError.Read p0 (p.Bytes ++ tl) = ⟨p, tl, none⟩ := by
  have hsmall : p.Message.length < 2 ^ 64 := by
    have h : maxStringLength < 2 ^ 64 := by norm_num [maxStringLength]
    omega
  have hfull : readFull p.Message.length (p.Message ++ tl) = (.ok p.Message, tl) :=
    readFull_append p.Message tl
  simp [PeerError.Read, PeerError.Bytes, List.append_assoc, readUintBE_beBytes,
    mod_pow32 _ hc, mod_pow64 _ hsmall, Nat.not_lt.mpr hm, hfull]

theorem peersBytes_some (ps : List TCPAddr)
    (hip : ∀ a ∈ ps, a.IP.length = 4 ∨ a.IP.length = 16) :
    ∃ bs, peersBytes ps = some bs := by
  induction ps with
  | nil => exact ⟨[], rfl⟩
  | cons a ps ih =>
    obtain ⟨bs, hbs⟩ := ih (fun x hx => hip x (List.mem_cons_of_mem a hx))
    rcases hip a (List.mem_cons_self a ps) with h4 | h16
    · exact ⟨0 :: (a.IP ++ beBytes 2 a.Port) ++ bs, by simp [peersBytes, addrBytes, h4, hbs]⟩
    · exact ⟨1 :: (a.IP ++ beBytes 2 a.Port) ++ bs, by simp [peersBytes, addrBytes, h16, hbs]⟩

theorem readPeersLoop_encode (ps : List TCPAddr) (acc : List TCPAddr)
    (tl bs : List Nat) (henc : peersBytes ps = some bs)
    (hport : ∀ a ∈ ps, a.Port < 2 ^ 16) :
    readPeersLoop ps.length acc (bs ++ tl) = ⟨acc ++ ps, tl, none⟩ := by
  induction ps generalizing acc bs with
  | nil =>
    rw [peersBytes] at henc
    simp only [Option.some.injEq] at henc
    subst henc
    simp [readPeersLoop]
  | cons a ps ih =>
    have hp : a.Port % 65536 = a.Port := mod_pow16 _ (hport a (by simp))
    have hport2 : ∀ b ∈ ps, b.Port < 2 ^ 16 := fun b hb => hport b (by simp [hb])
    rcases hy : peersBytes ps with _ | y
    · rw [peersBytes, hy] at henc
      rcases hx : addrBytes a with _ | x <;> simp [hx] at henc
    · rcases hx : addrBytes a with _ | x
      · rw [peersBytes, hx] at henc
        simp at henc
      · rw [peersBytes, hx, hy] at henc
        simp only [Option.some.injEq] at henc
        subst henc
        have hrec := ih (acc ++ [{ IP := a.IP, Port := a.Port }]) y hy hport2
        unfold addrBytes at hx
        by_cases h4 : a.IP.length = 4
        · rw [if_pos h4] at hx
          simp only [Option.some.injEq] at hx
          subst hx
          have hfull : readFull 4 (a.IP ++ (beBytes 2 a.Port ++ (y ++ tl))) =
              (.ok a.IP, beBytes 2 a.Port ++ (y ++ tl)) :=
            readFull_of_length_eq 4 a.IP _ h4
          simp only [List.length_cons, readPeersLoop, List.cons_append,
            List.append_assoc, readUintBE_cons]
          simp [hfull, readUintBE_beBytes, hp, hrec]
        · rw [if_neg h4] at hx
          by_cases h16 : a.IP.length = 16
          · rw [if_pos h16] at hx
            simp only [Option.some.injEq] at hx
            subst hx
            have hfull : readFull 16 (a.IP ++ (beBytes 2 a.Port ++ (y ++ tl))) =
                (.ok a.IP, beBytes 2 a.Port ++ (y ++ tl)) :=
              readFull_of_length_eq 16 a.IP _ h16
            simp only [List.length_cons, readPeersLoop, List.cons_append,
              List.append_assoc, readUintBE_cons]
            simp [hfull, readUintBE_beBytes, hp, hrec]
          · rw [if_neg h16] at hx
            simp at hx

theorem peerAddrs_read_roundtrip (p : PeerAddrs) (tl bs : List Nat)
    (henc : PeerAddrs.Bytes p = some bs)
    (hcount : p.peers.length ≤ maxPeerAddresses)
    (hport : ∀ a ∈ p.peers, a.Port < 2 ^ 16) :
    PeerAddrs.Read { peers := [] } (bs ++ tl) = ⟨p, tl, none⟩ := by
  rcases hpb : peersBytes p.peers with _ | inner
  · rw [PeerAddrs.Bytes, hpb] at henc
    simp at henc
  · rw [PeerAddrs.Bytes, hpb] at henc
    simp only [Option.some.injEq] at henc
    subst henc
    have hlt : p.peers.length < 2 ^ 32 := by
      have h : maxPeerAddresses < 2 ^ 32 := by norm_num [maxPeerAddresses]
      omega
    have hloop := readPeersLoop_encode p.peers [] tl inner hpb hport
    simp [PeerAddrs.Read, List.append_assoc, readUintBE_beBytes, mod_pow32 _ hlt,
      Nat.not_lt.mpr hcount, hloop]

theorem Ping.Read_err_short (p0 : Ping) (s : List Nat) (h : s.length < 16) :
    (Ping.Read p0 s).err = some .eof := by
  rcases hr : readUintBE 8 s with ⟨e | x, r⟩
  · obtain ⟨-, he, -⟩ := readUintBE_err_inv hr
    subst he
    simp [Ping.Read, hr]
  · obtain ⟨h8, -, hrr⟩ := readUintBE_ok_inv hr
    subst hrr
    rcases hr2 : readUintBE 8 (s.drop 8) with ⟨e2 | x2, r2⟩
    · obtain ⟨-, he2, -⟩ := readUintBE_err_inv hr2
      subst he2
      simp [Ping.Read, hr, hr2]
    · obtain ⟨h82, -, -⟩ := readUintBE_ok_inv hr2
      rw [List.length_drop] at h82
      omega

theorem Ping.Read_ok_rest (p0 : Ping) (s : List Nat)
    (h : (Ping.Read p0 s).err = none) :
    (Ping.Read p0 s).rest = s.drop 16 ∧ 16 ≤ s.length := by
  rcases hr : readUintBE 8 s with ⟨e | x, r⟩
  · simp [Ping.Read, hr] at h
  · obtain ⟨h8, -, hrr⟩ := readUintBE_ok_inv hr
    subst hrr
    rcases hr2 : readUintBE 8 (s.drop 8) with ⟨e2 | x2, r2⟩
    · simp [Ping.Read, hr, hr2] at h
    · obtain ⟨h82, -, hrr2⟩ := readUintBE_ok_inv hr2
      subst hrr2
      rw [List.length_drop] at h82
      constructor
      · simp [Ping.Read, hr, hr2, List.drop_drop]
      · omega

theorem Header.Read_rest (h0 : Header) (v : List Nat) :
    ∃ k ≤ HeaderLen, (Header.Read h0 v).rest = v.drop k := by
  rcases hr : readFull 2 v with ⟨e | m, r⟩
  · obtain ⟨-, -, hrr⟩ := readFull_err_inv hr
    subst hrr
    exact ⟨2, by norm_num [HeaderLen], by simp [Header.Read, hr]⟩
  · obtain ⟨h2, -, hrr⟩ := readFull_ok_inv hr
    subst hrr
    by_cases hv : Header.ValidateMagic { h0 with magic := m }
    · rcases hr1 : readUintBE 1 (v.drop 2) with ⟨e1 | t, r1⟩
      · obtain ⟨-, -, hrr1⟩ := readUintBE_err_inv hr1
        subst hrr1
        exact ⟨3, by norm_num [HeaderLen],
          by simp [Header.Read, hr, hv, hr1, List.drop_drop]⟩
      · obtain ⟨-, -, hrr1⟩ := readUintBE_ok_inv hr1
        have hd3 : r1 = v.drop 3 := by
          rw [hrr1, List.drop_drop]
        subst hd3
        rcases hr8 : readUintBE 8 (v.drop 3) with ⟨e8 | l, r8⟩
        · obtain ⟨-, -, hrr8⟩ := readUintBE_err_inv hr8
          have hd11 : r8 = v.drop 11 := by
            rw [hrr8, List.drop_drop]
          subst hd11
          exact ⟨11, by norm_num [HeaderLen],
            by simp [Header.Read, hr, hv, hr1, hr8, List.drop_drop]⟩
        · obtain ⟨-, -, hrr8⟩ := readUintBE_ok_inv hr8
          have hd11 : r8 = v.drop 11 := by
            rw [hrr8, List.drop_drop]
          subst hd11
          exact ⟨11, by norm_num [HeaderLen],
            by simp [Header.Read, hr, hv, hr1, hr8, List.drop_drop]⟩
    · exact ⟨2, by norm_num [HeaderLen], by simp [Header.Read, hr, hv]⟩

theorem Header.Read_ok_char (h0 : Header) (v : List Nat)
    (h : (Header.Read h0 v).err = none) :
    (Header.Read h0 v).rest = v.drop HeaderLen ∧ HeaderLen ≤ v.length ∧
      (Header.Read h0 v).val.Len = beVal ((v.drop 3).take 8) := by
  rcases hr : readFull 2 v with ⟨e | m, r⟩
  · simp [Header.Read, hr] at h
  · obtain ⟨h2, -, hrr⟩ := readFull_ok_inv hr
    subst hrr
    by_cases hv : Header.ValidateMagic { h0 with magic := m }
    · rcases hr1 : readUintBE 1 (v.drop 2) with ⟨e1 | t, r1⟩
      · simp [Header.Read, hr, hv, hr1] at h
      · obtain ⟨-, -, hrr1⟩ := readUintBE_ok_inv hr1
        have hd3 : r1 = v.drop 3 := by
          rw [hrr1, List.drop_drop]
        subst hd3
        rcases hr8 : readUintBE 8 (v.drop 3) with ⟨e8 | l, r8⟩
        · simp [Header.Read, hr, hv, hr1, hr8] at h
        · obtain ⟨h8, hl, hrr8⟩ := readUintBE_ok_inv hr8
          have hd11 : r8 = v.drop 11 := by
            rw [hrr8, List.drop_drop]
          subst hd11
          rw [List.length_drop] at h8
          refine ⟨?_, ?_, ?_⟩
          · simp [Header.Read, hr, hv, hr1, hr8, HeaderLen]
          · simp only [HeaderLen]
            omega
          · simp [Header.Read, hr, hv, hr1, hr8, hl]
    · simp [Header.Read, hr, hv] at h

theorem take_view_len_field (s : List Nat) :
    ((s.take HeaderLen).drop 3).take 8 = (s.drop 3).take 8 := by
  simp [List.drop_take, List.take_take, HeaderLen]

/-- Claim C4: ReadMessage never consumes more than header width plus
the declared body length from the underlying stream: the header phase
consumes at most HeaderLen bytes and the body phase at most the length
field carried in bytes 3 to 10 of the stream, whatever the decoder
does. -/
theorem ReadMessage_consumption (msg : Msg) (s : List Nat) :
    ∃ c1 c2, c1 ≤ HeaderLen ∧ c2 ≤ beVal ((s.drop 3).take 8) ∧
      (ReadMessage msg s).rest = s.drop (c1 + c2) := by
  rcases herr : (Header.Read { magic := [0, 0], Typ := 0, Len := 0 } (s.take HeaderLen)).err
    with _ | e
  · obtain ⟨hrest, hlen, hlenval⟩ :=
      Header.Read_ok_char { magic := [0, 0], Typ := 0, Len := 0 } (s.take HeaderLen) herr
    have hvlen : (s.take HeaderLen).length = HeaderLen := by
      rw [List.length_take] at hlen ⊢
      omega
    have hc1 : (s.take HeaderLen).length -
        ((Header.Read { magic := [0, 0], Typ := 0, Len := 0 } (s.take HeaderLen)).rest).length =
        HeaderLen := by
      rw [hrest, List.length_drop, hvlen]
      omega
    have hfield :
        (Header.Read { magic := [0, 0], Typ := 0, Len := 0 } (s.take HeaderLen)).val.Len =
        beVal ((s.drop 3).take 8) := by
      rw [hlenval, take_view_len_field]
    by_cases hty :
        (Header.Read { magic := [0, 0], Typ := 0, Len := 0 } (s.take HeaderLen)).val.Typ =
        msg.Typ
    · by_cases hbig :
          (Header.Read { magic := [0, 0], Typ := 0, Len := 0 } (s.take HeaderLen)).val.Len >
          MaxMsgLen
      · refine ⟨HeaderLen, 0, le_refl _, Nat.zero_le _, ?_⟩
        simp only [ReadMessage, herr, hc1]
        simp [hty, hbig]
      · refine ⟨HeaderLen,
          ((s.drop HeaderLen).take
              (Header.Read { magic := [0, 0], Typ := 0, Len := 0 } (s.take HeaderLen)).val.Len).length -
            (Msg.Read msg ((s.drop HeaderLen).take
              (Header.Read { magic := [0, 0], Typ := 0, Len := 0 } (s.take HeaderLen)).val.Len)).rest.length,
          le_refl _, ?_, ?_⟩
        · calc _ ≤ ((s.drop HeaderLen).take
              (Header.Read { magic := [0, 0], Typ := 0, Len := 0 } (s.take HeaderLen)).val.Len).length :=
                Nat.sub_le _ _
            _ ≤ (Header.Read { magic := [0, 0], Typ := 0, Len := 0 } (s.take HeaderLen)).val.Len := by
                rw [List.length_take]
                exact Nat.min_le_left _ _
            _ = beVal ((s.drop 3).take 8) := hfield
        · simp only [ReadMessage, herr, hc1]
          simp [hty, hbig]
    · refine ⟨HeaderLen, 0, le_refl _, Nat.zero_le _, ?_⟩
      simp only [ReadMessage, herr, hc1]
      simp [hty]
  · obtain ⟨k, hk, hrest⟩ :=
      Header.Read_rest { magic := [0, 0], Typ := 0, Len := 0 } (s.take HeaderLen)
    refine ⟨(s.take HeaderLen).length -
        ((Header.Read { magic := [0, 0], Typ := 0, Len := 0 } (s.take HeaderLen)).rest).length,
      0, ?_, Nat.zero_le _, ?_⟩
    · rw [List.length_take]
      omega
    · simp only [ReadMessage, herr, Nat.add_zero]

theorem PeerError.Read_oversized (p : PeerError) (c L : Nat) (tl : List Nat)
    (hc : c < 2 ^ 32) (hL : L < 2 ^ 64) (hbig : L > maxStringLength) :
    PeerError.Read p (beBytes 4 c ++ beBytes 8 L ++ tl) =
      ⟨{ Code := c, Message := p.Message }, tl, some .invalidMessageLen⟩ := by
  simp [PeerError.Read, List.append_assoc, readUintBE_beBytes, mod_pow32 _ hc,
    mod_pow64 _ hL, hbig]

theorem PeerAddrs.Read_count_oversized (p : PeerAddrs) (C : Nat) (tl : List Nat)
    (hC : C < 2 ^ 32) (hbig : C > maxPeerAddresses) :
    PeerAddrs.Read p (beBytes 4 C ++ tl) = ⟨p, tl, some .invalidPeersCount⟩ := by
  simp [PeerAddrs.Read, readUintBE_beBytes, mod_pow32 _ hC, hbig]

theorem PeerAddrs.Read_truncated (p : PeerAddrs) (ip : List Nat) (port : Nat)
    (h4 : ip.length = 4) (hport : port < 2 ^ 16) :
    PeerAddrs.Read p (beBytes 4 2 ++ 0 :: (ip ++ beBytes 2 port)) =
      ⟨{ peers := p.peers ++ [{ IP := ip, Port := port }] }, [], some .eof⟩ := by
  have e2 : readFull 4 (ip ++ beBytes 2 port) = (.ok ip, beBytes 2 port) :=
    readFull_of_length_eq 4 ip _ h4
  have e3 : readUintBE 2 (beBytes 2 port) = (.ok port, []) := by
    have h := readUintBE_beBytes 2 port []
    simpa [mod_pow16 _ hport] using h
  have e4 : readUintBE 1 ([] : List Nat) = (.error .eof, []) := by
    simp [readUintBE, readFull]
  simp [PeerAddrs.Read, readUintBE_beBytes, maxPeerAddresses, readPeersLoop,
    readUintBE_cons, e2, e3, e4]

/-- Claim C1, counterexample: the round-trip law fails as stated.  A
PeerAddrs value whose single entry satisfies every condition the claim
lists (one address, 4 bytes long) but carries the port value 65536
encodes to a body that decodes to port 0, not 65536: the encoder
truncates the Go int port to 2 bytes. -/
theorem c1_roundtrip_counterexample :
    PeerAddrs.Bytes { peers := [{ IP := [1, 2, 3, 4], Port := 65536 }] } =
      some [0, 0, 0, 1, 0, 1, 2, 3, 4, 0, 0] ∧
    PeerAddrs.Read { peers := [] } [0, 0, 0, 1, 0, 1, 2, 3, 4, 0, 0] =
      ⟨{ peers := [{ IP := [1, 2, 3, 4], Port := 0 }] }, [], none⟩ ∧
    ({ peers := [{ IP := [1, 2, 3, 4], Port := 0 }] } : PeerAddrs) ≠
      { peers := [{ IP := [1, 2, 3, 4], Port := 65536 }] } := by
  exact ⟨by decide, by decide, by decide⟩

/-- Claim C1 (amended): for every message variant and valid field
values, with every port value additionally below 2 to the 16, decoding
the output of Bytes with the variant decoder started on an empty value
reproduces a value equal to the original and consumes the whole body. -/
theorem c1_roundtrip_amended :
    (∀ (p0 p : Ping), p.TotalDifficulty < 2 ^ 64 → p.Height < 2 ^ 64 →
      Msg.Read (.ping p0) p.Bytes = ⟨.ping p, [], none⟩) ∧
    (∀ (p0 p : Ping), p.TotalDifficulty < 2 ^ 64 → p.Height < 2 ^ 64 →
      Msg.Read (.pong p0) p.Bytes = ⟨.pong p, [], none⟩) ∧
    (∀ (g0 g : GetPeerAddrs), g.Capabilities < 2 ^ 32 →
      Msg.Read (.getPeerAddrs g0) g.Bytes = ⟨.getPeerAddrs g, [], none⟩) ∧
    (∀ (e0 e : PeerError), e.Code < 2 ^ 32 → e.Message.length ≤ maxStringLength →
      Msg.Read (.peerError e0) e.Bytes = ⟨.peerError e, [], none⟩) ∧
    (∀ p : PeerAddrs, p.peers.length ≤ maxPeerAddresses →
      (∀ a ∈ p.peers, a.IP.length = 4 ∨ a.IP.length = 16) →
      (∀ a ∈ p.peers, a.Port < 2 ^ 16) →
      ∃ bs, PeerAddrs.Bytes p = some bs ∧
        Msg.Read (.peerAddrs { peers := [] }) bs = ⟨.peerAddrs p, [], none⟩) := by
  refine ⟨?_, ?_, ?_, ?_, ?_⟩
  · intro p0 p h1 h2
    have h := ping_read_roundtrip p0 p [] h1 h2
    rw [List.append_nil] at h
    simp [Msg.Read, h]
  · intro p0 p h1 h2
    have h := ping_read_roundtrip p0 p [] h1 h2
    rw [List.append_nil] at h
    simp [Msg.Read, h]
  · intro g0 g h1
    have h := getPeerAddrs_read_roundtrip g0 g [] h1
    rw [List.append_nil] at h
    simp [Msg.Read, h]
  · intro e0 e h1 h2
    have h := peerError_read_roundtrip e0 e [] h1 h2
    rw [List.append_nil] at h
    simp [Msg.Read, h]
  · intro p hcount hip hport
    obtain ⟨inner, hinner⟩ := peersBytes_some p.peers hip
    have henc : PeerAddrs.Bytes p = some (beBytes 4 p.peers.length ++ inner) := by
      simp [PeerAddrs.Bytes, hinner]
    have h := peerAddrs_read_roundtrip p [] (beBytes 4 p.peers.length ++ inner) henc hcount hport
    rw [List.append_nil] at h
    exact ⟨beBytes 4 p.peers.length ++ inner, henc, by simp [Msg.Read, h]⟩

/-- Claim C1 witness: the amended round trip at concrete values of all
five variants. -/
theorem c1_roundtrip_amended_witness :
    Msg.Read (.ping { TotalDifficulty := 0, Height := 0 })
      (Ping.Bytes { TotalDifficulty := 1000, Height := 42 }) =
      ⟨.ping { TotalDifficulty := 1000, Height := 42 }, [], none⟩ ∧
    Msg.Read (.pong { TotalDifficulty := 0, Height := 0 })
      (Ping.Bytes { TotalDifficulty := 7, Height := 9 }) =
      ⟨.pong { TotalDifficulty := 7, Height := 9 }, [], none⟩ ∧
    Msg.Read (.getPeerAddrs { Capabilities := 0 })
      (GetPeerAddrs.Bytes { Capabilities := 6 }) =
      ⟨.getPeerAddrs { Capabilities := 6 }, [], none⟩ ∧
    Msg.Read (.peerError { Code := 0, Message := [] })
      (PeerError.Bytes { Code := 3, Message := [98, 97, 100] }) =
      ⟨.peerError { Code := 3, Message := [98, 97, 100] }, [], none⟩ ∧
    (∃ bs, PeerAddrs.Bytes { peers := [{ IP := [10, 0, 0, 1], Port := 8080 }] } = some bs ∧
      Msg.Read (.peerAddrs { peers := [] }) bs =
        ⟨.peerAddrs { peers := [{ IP := [10, 0, 0, 1], Port := 8080 }] }, [], none⟩) := by
  exact ⟨c1_roundtrip_amended.1 _ _ (by decide) (by decide),
    c1_roundtrip_amended.2.1 _ _ (by decide) (by decide),
    c1_roundtrip_amended.2.2.1 _ _ (by decide),
    c1_roundtrip_amended.2.2.2.1 _ _ (by decide) (by decide),
    c1_roundtrip_amended.2.2.2.2 _ (by decide) (by decide) (by decide)⟩

/-- Claim C2: every oversized declaration is rejected before its
payload is read.  ReadMessage with a declared length above MaxMsgLen
fails with the size error leaving the whole body unread; PeerError.Read
with a declared message length above maxStringLength fails leaving the
message bytes unread; PeerAddrs.Read with a declared count above
maxPeerAddresses fails leaving every entry unread and the peer list
untouched. -/
theorem c2_oversized_rejected :
    (∀ (msg : Msg) (L : Nat) (body : List Nat), L < 2 ^ 64 → L > MaxMsgLen →
      ReadMessage msg (MagicCode ++ msg.Typ :: beBytes 8 L ++ body) =
        ⟨msg, HeaderLen, body, some .tooBigMsg⟩) ∧
    (∀ (p : PeerError) (c L : Nat) (tl : List Nat), c < 2 ^ 32 → L < 2 ^ 64 →
      L > maxStringLength →
      PeerError.Read p (beBytes 4 c ++ beBytes 8 L ++ tl) =
        ⟨{ Code := c, Message := p.Message }, tl, some .invalidMessageLen⟩) ∧
    (∀ (p : PeerAddrs) (C : Nat) (tl : List Nat), C < 2 ^ 32 → C > maxPeerAddresses →
      PeerAddrs.Read p (beBytes 4 C ++ tl) = ⟨p, tl, some .invalidPeersCount⟩) := by
  refine ⟨?_, ?_, ?_⟩
  · intro msg L body hL hbig
    exact ReadMessage_tooBig msg L body hL hbig
  · intro p c L tl hc hL hbig
    exact PeerError.Read_oversized p c L tl hc hL hbig
  · intro p C tl hC hbig
    exact PeerAddrs.Read_count_oversized p C tl hC hbig

/-- Claim C2 witness: the three rejections at concrete oversized
inputs; each trailing payload is returned unread. -/
theorem c2_oversized_rejected_witness :
    ReadMessage (.ping { TotalDifficulty := 0, Height := 0 })
      (MagicCode ++ Msg.Typ (.ping { TotalDifficulty := 0, Height := 0 }) ::
        beBytes 8 20000001 ++ [5]) =
      ⟨.ping { TotalDifficulty := 0, Height := 0 }, HeaderLen, [5], some .tooBigMsg⟩ ∧
    PeerError.Read { Code := 0, Message := [] } (beBytes 4 7 ++ beBytes 8 1025 ++ [9]) =
      ⟨{ Code := 7, Message := [] }, [9], some .invalidMessageLen⟩ ∧
    PeerAddrs.Read { peers := [] } (beBytes 4 257 ++ [9]) =
      ⟨{ peers := [] }, [9], some .invalidPeersCount⟩ := by
  exact ⟨c2_oversized_rejected.1 _ 20000001 [5] (by norm_num) (by norm_num [MaxMsgLen]),
    c2_oversized_rejected.2.1 _ 7 1025 [9] (by norm_num) (by norm_num)
      (by norm_num [maxStringLength]),
    c2_oversized_rejected.2.2 _ 257 [9] (by norm_num) (by norm_num [maxPeerAddresses])⟩

/-- Claim C3, counterexample: a successful ReadMessage need not have
consumed exactly header width plus declared length.  A Ping-typed
header declaring a 17-byte body followed by 17 body bytes decodes
successfully, ReadMessage reports 28 bytes, yet the final body byte is
still unread on the stream (27 bytes consumed). -/
theorem c3_exact_consumption_counterexample :
    (ReadMessage (.ping { TotalDifficulty := 0, Height := 0 })
        [30, 197, 0, 0, 0, 0, 0, 0, 0, 0, 17,
          1, 2, 3, 4, 5, 6, 7, 8, 9, 10, 11, 12, 13, 14, 15, 16, 17]).err = none ∧
    (ReadMessage (.ping { TotalDifficulty := 0, Height := 0 })
        [30, 197, 0, 0, 0, 0, 0, 0, 0, 0, 17,
          1, 2, 3, 4, 5, 6, 7, 8, 9, 10, 11, 12, 13, 14, 15, 16, 17]).n = 28 ∧
    (ReadMessage (.ping { TotalDifficulty := 0, Height := 0 })
        [30, 197, 0, 0, 0, 0, 0, 0, 0, 0, 17,
          1, 2, 3, 4, 5, 6, 7, 8, 9, 10, 11, 12, 13, 14, 15, 16, 17]).rest = [17] := by
  exact ⟨by decide, by decide, by decide⟩

theorem getPeerAddrs_read_ok_rest (g0 : GetPeerAddrs) (s : List Nat)
    (h : (GetPeerAddrs.Read g0 s).err = none) :
    (GetPeerAddrs.Read g0 s).rest = s.drop 4 ∧ 4 ≤ s.length := by
  rcases hr : readUintBE 4 s with ⟨e | x, r⟩
  · simp [GetPeerAddrs.Read, hr] at h
  · obtain ⟨h4, -, hrr⟩ := readUintBE_ok_inv hr
    subst hrr
    exact ⟨by simp [GetPeerAddrs.Read, hr], h4⟩

theorem getPeerAddrs_read_err_short (g0 : GetPeerAddrs) (s : List Nat)
    (h : s.length < 4) :
    (GetPeerAddrs.Read g0 s).err = some .eof := by
  rcases hr : readUintBE 4 s with ⟨e | x, r⟩
  · obtain ⟨-, he, -⟩ := readUintBE_err_inv hr
    subst he
    simp [GetPeerAddrs.Read, hr]
  · obtain ⟨h4, -, -⟩ := readUintBE_ok_inv hr
    omega

theorem peerError_read_ok_rest (p0 : PeerError) (s : List Nat)
    (h : (PeerError.Read p0 s).err = none) :
    (PeerError.Read p0 s).rest = s.drop (12 + beVal ((s.drop 4).take 8)) ∧
      12 + beVal ((s.drop 4).take 8) ≤ s.length := by
  rcases hr : readUintBE 4 s with ⟨e | c, r⟩
  · simp [PeerError.Read, hr] at h
  · obtain ⟨h4, -, hrr⟩ := readUintBE_ok_inv hr
    subst hrr
    rcases hr8 : readUintBE 8 (s.drop 4) with ⟨e8 | L, r8⟩
    · simp [PeerError.Read, hr, hr8] at h
    · obtain ⟨h8, hL, hrr8⟩ := readUintBE_ok_inv hr8
      have hd12 : r8 = s.drop 12 := by
        rw [hrr8, List.drop_drop]
      subst hd12
      rw [List.length_drop] at h8
      subst hL
      by_cases hbig : beVal ((s.drop 4).take 8) > maxStringLength
      · simp [PeerError.Read, hr, hr8, hbig] at h
      · rcases hf : readFull (beVal ((s.drop 4).take 8)) (s.drop 12) with ⟨ef | buff, rf⟩
        · simp [PeerError.Read, hr, hr8, hbig, hf] at h
        · obtain ⟨hfl, -, hfr⟩ := readFull_ok_inv hf
          subst hfr
          rw [List.length_drop] at hfl
          refine ⟨?_, by omega⟩
          simp [PeerError.Read, hr, hr8, hbig, hf, List.drop_drop]

theorem peerError_read_err_exhausted (p0 : PeerError) (s : List Nat)
    (h : s.length < 12 ∨ (12 ≤ s.length ∧ beVal ((s.drop 4).take 8) ≤ maxStringLength ∧
      s.length < 12 + beVal ((s.drop 4).take 8))) :
    (PeerError.Read p0 s).err = some .eof := by
  rcases hr : readUintBE 4 s with ⟨e | c, r⟩
  · obtain ⟨-, he, -⟩ := readUintBE_err_inv hr
    subst he
    simp [PeerError.Read, hr]
  · obtain ⟨h4, -, hrr⟩ := readUintBE_ok_inv hr
    subst hrr
    rcases hr8 : readUintBE 8 (s.drop 4) with ⟨e8 | L, r8⟩
    · obtain ⟨-, he8, -⟩ := readUintBE_err_inv hr8
      subst he8
      simp [PeerError.Read, hr, hr8]
    · obtain ⟨h8, hL, hrr8⟩ := readUintBE_ok_inv hr8
      have hd12 : r8 = s.drop 12 := by
        rw [hrr8, List.drop_drop]
      subst hd12
      rw [List.length_drop] at h8
      subst hL
      obtain ⟨-, hle, hlt⟩ : 12 ≤ s.length ∧ beVal ((s.drop 4).take 8) ≤ maxStringLength ∧
          s.length < 12 + beVal ((s.drop 4).take 8) := by
        rcases h with h | h
        · omega
        · exact h
      have hbig : ¬ beVal ((s.drop 4).take 8) > maxStringLength := by omega
      rcases hf : readFull (beVal ((s.drop 4).take 8)) (s.drop 12) with ⟨ef | buff, rf⟩
      · obtain ⟨-, hef, -⟩ := readFull_err_inv hf
        subst hef
        simp [PeerError.Read, hr, hr8, hbig, hf]
      · obtain ⟨hfl, -, -⟩ := readFull_ok_inv hf
        rw [List.length_drop] at hfl
        omega

theorem peerError_read_err_oversize (p0 : PeerError) (s : List Nat)
    (h12 : 12 ≤ s.length) (hbig : beVal ((s.drop 4).take 8) > maxStringLength) :
    (PeerError.Read p0 s).err = some .invalidMessageLen := by
  rcases hr : readUintBE 4 s with ⟨e | c, r⟩
  · obtain ⟨hlt, -, -⟩ := readUintBE_err_inv hr
    omega
  · obtain ⟨h4, -, hrr⟩ := readUintBE_ok_inv hr
    subst hrr
    rcases hr8 : readUintBE 8 (s.drop 4) with ⟨e8 | L, r8⟩
    · obtain ⟨hlt, -, -⟩ := readUintBE_err_inv hr8
      rw [List.length_drop] at hlt
      omega
    · obtain ⟨-, hL, -⟩ := readUintBE_ok_inv hr8
      subst hL
      simp [PeerError.Read, hr, hr8, hbig]

theorem readPeersLoop_ok_char (n : Nat) (acc : List TCPAddr) (s : List Nat)
    (h : (readPeersLoop n acc s).err = none) :
    ∃ new, (readPeersLoop n acc s).val = acc ++ new ∧ new.length = n ∧
      (readPeersLoop n acc s).rest = s.drop ((new.map (fun a => 3 + a.IP.length)).sum) ∧
      (new.map (fun a => 3 + a.IP.length)).sum ≤ s.length := by
  induction n generalizing acc s with
  | zero => exact ⟨[], by simp [readPeersLoop], rfl, by simp [readPeersLoop], by simp⟩
  | succ n ih =>
    rcases hr : readUintBE 1 s with ⟨e | flag, r⟩
    · simp [readPeersLoop, hr] at h
    · obtain ⟨h1, -, hrr⟩ := readUintBE_ok_inv hr
      subst hrr
      have htd : s.tail = s.drop 1 := (List.drop_one s).symm
      by_cases hflag : flag = 0
      · rcases hf : readFull 4 s.tail with ⟨ef | ip, rf⟩
        · simp [readPeersLoop, hr, hflag, hf] at h
        · obtain ⟨hfle, hipv, hfr⟩ := readFull_ok_inv hf
          rw [htd, List.length_drop] at hfle
          have hrf : rf = s.drop 5 := by
            rw [hfr, htd, List.drop_drop]
          subst hrf
          have hiplen : ip.length = 4 := by
            rw [hipv, List.length_take, htd, List.length_drop]
            omega
          rcases hp : readUintBE 2 (s.drop 5) with ⟨ep | port, rp⟩
          · simp [readPeersLoop, hr, hflag, hf, hp] at h
          · obtain ⟨hpl, -, hpr⟩ := readUintBE_ok_inv hp
            rw [List.length_drop] at hpl
            have hrp : rp = s.drop 7 := by
              rw [hpr, List.drop_drop]
            subst hrp
            have hstep : readPeersLoop (n + 1) acc s =
                readPeersLoop n (acc ++ [{ IP := ip, Port := port }]) (s.drop 7) := by
              simp [readPeersLoop, hr, hflag, hf, hp]
            rw [hstep] at h ⊢
            obtain ⟨new, hval, hlen, hrest, hsum⟩ :=
              ih (acc ++ [{ IP := ip, Port := port }]) (s.drop 7) h
            rw [List.length_drop] at hsum
            have harith : ((({ IP := ip, Port := port } : TCPAddr) :: new).map
                (fun a => 3 + a.IP.length)).sum =
                7 + (new.map (fun a => 3 + a.IP.length)).sum := by
              simp [hiplen]
            refine ⟨{ IP := ip, Port := port } :: new, ?_, by simp [hlen], ?_, ?_⟩
            · rw [hval]
              simp
            · rw [hrest, List.drop_drop, harith]
            · rw [harith]
              omega
      · rcases hf : readFull 16 s.tail with ⟨ef | ip, rf⟩
        · simp [readPeersLoop, hr, hflag, hf] at h
        · obtain ⟨hfle, hipv, hfr⟩ := readFull_ok_inv hf
          rw [htd, List.length_drop] at hfle
          have hrf : rf = s.drop 17 := by
            rw [hfr, htd, List.drop_drop]
          subst hrf
          have hiplen : ip.length = 16 := by
            rw [hipv, List.length_take, htd, List.length_drop]
            omega
          rcases hp : readUintBE 2 (s.drop 17) with ⟨ep | port, rp⟩
          · simp [readPeersLoop, hr, hflag, hf, hp] at h
          · obtain ⟨hpl, -, hpr⟩ := readUintBE_ok_inv hp
            rw [List.length_drop] at hpl
            have hrp : rp = s.drop 19 := by
              rw [hpr, List.drop_drop]
            subst hrp
            have hstep : readPeersLoop (n + 1) acc s =
                readPeersLoop n (acc ++ [{ IP := ip, Port := port }]) (s.drop 19) := by
              simp [readPeersLoop, hr, hflag, hf, hp]
            rw [hstep] at h ⊢
            obtain ⟨new, hval, hlen, hrest, hsum⟩ :=
              ih (acc ++ [{ IP := ip, Port := port }]) (s.drop 19) h
            rw [List.length_drop] at hsum
            have harith : ((({ IP := ip, Port := port } : TCPAddr) :: new).map
                (fun a => 3 + a.IP.length)).sum =
                19 + (new.map (fun a => 3 + a.IP.length)).sum := by
              simp [hiplen]
            refine ⟨{ IP := ip, Port := port } :: new, ?_, by simp [hlen], ?_, ?_⟩
            · rw [hval]
              simp
            · rw [hrest, List.drop_drop, harith]
            · rw [harith]
              omega

theorem readPeersLoop_err_eof (n : Nat) (acc : List TCPAddr) (s : List Nat) (e : PErr)
    (h : (readPeersLoop n acc s).err = some e) : e = .eof := by
  induction n generalizing acc s with
  | zero => simp [readPeersLoop] at h
  | succ n ih =>
    rcases hr : readUintBE 1 s with ⟨e1 | flag, r⟩
    · obtain ⟨-, he, -⟩ := readUintBE_err_inv hr
      subst he
      simp [readPeersLoop, hr] at h
      exact h.symm
    · obtain ⟨h1, -, hrr⟩ := readUintBE_ok_inv hr
      subst hrr
      have htd : s.tail = s.drop 1 := (List.drop_one s).symm
      by_cases hflag : flag = 0
      · rcases hf : readFull 4 s.tail with ⟨ef | ip, rf⟩
        · obtain ⟨-, hef, -⟩ := readFull_err_inv hf
          subst hef
          simp [readPeersLoop, hr, hflag, hf] at h
          exact h.symm
        · rcases hp : readUintBE 2 rf with ⟨ep | port, rp⟩
          · obtain ⟨-, hep, -⟩ := readUintBE_err_inv hp
            subst hep
            simp [readPeersLoop, hr, hflag, hf, hp] at h
            exact h.symm
          · have hstep : readPeersLoop (n + 1) acc s =
                readPeersLoop n (acc ++ [{ IP := ip, Port := port }]) rp := by
              simp [readPeersLoop, hr, hflag, hf, hp]
            rw [hstep] at h
            exact ih _ _ h
      · rcases hf : readFull 16 s.tail with ⟨ef | ip, rf⟩
        · obtain ⟨-, hef, -⟩ := readFull_err_inv hf
          subst hef
          simp [readPeersLoop, hr, hflag, hf] at h
          exact h.symm
        · rcases hp : readUintBE 2 rf with ⟨ep | port, rp⟩
          · obtain ⟨-, hep, -⟩ := readUintBE_err_inv hp
            subst hep
            simp [readPeersLoop, hr, hflag, hf, hp] at h
            exact h.symm
          · have hstep : readPeersLoop (n + 1) acc s =
                readPeersLoop n (acc ++ [{ IP := ip, Port := port }]) rp := by
              simp [readPeersLoop, hr, hflag, hf, hp]
            rw [hstep] at h
            exact ih _ _ h

theorem peerAddrs_read_ok_char (p0 : PeerAddrs) (s : List Nat)
    (h : (PeerAddrs.Read p0 s).err = none) :
    ∃ new, (PeerAddrs.Read p0 s).val = { peers := p0.peers ++ new } ∧
      new.length = beVal (s.take 4) ∧
      (PeerAddrs.Read p0 s).rest =
        s.drop (4 + (new.map (fun a => 3 + a.IP.length)).sum) ∧
      4 + (new.map (fun a => 3 + a.IP.length)).sum ≤ s.length := by
  rcases hr : readUintBE 4 s with ⟨e | c, r⟩
  · simp [PeerAddrs.Read, hr] at h
  · obtain ⟨h4, hc, hrr⟩ := readUintBE_ok_inv hr
    subst hrr
    by_cases hbig : c > maxPeerAddresses
    · simp [PeerAddrs.Read, hr, hbig] at h
    · have herr : (readPeersLoop c p0.peers (s.drop 4)).err = none := by
        by_contra hne
        simp [PeerAddrs.Read, hr, hbig] at h
        exact hne h
      obtain ⟨new, hval, hlen, hrest, hsum⟩ := readPeersLoop_ok_char c p0.peers (s.drop 4) herr
      rw [List.length_drop] at hsum
      refine ⟨new, ?_, by rw [hlen, hc], ?_, by omega⟩
      · simp [PeerAddrs.Read, hr, hbig, hval]
      · have : (PeerAddrs.Read p0 s).rest = (readPeersLoop c p0.peers (s.drop 4)).rest := by
          simp [PeerAddrs.Read, hr, hbig]
        rw [this, hrest, List.drop_drop]

theorem peerAddrs_read_err_short (p0 : PeerAddrs) (s : List Nat) (h : s.length < 4) :
    (PeerAddrs.Read p0 s).err = some .eof := by
  rcases hr : readUintBE 4 s with ⟨e | c, r⟩
  · obtain ⟨-, he, -⟩ := readUintBE_err_inv hr
    subst he
    simp [PeerAddrs.Read, hr]
  · obtain ⟨h4, -, -⟩ := readUintBE_ok_inv hr
    omega

theorem peerAddrs_read_err_oversize (p0 : PeerAddrs) (s : List Nat)
    (h4 : 4 ≤ s.length) (hbig : beVal (s.take 4) > maxPeerAddresses) :
    (PeerAddrs.Read p0 s).err = some .invalidPeersCount := by
  rcases hr : readUintBE 4 s with ⟨e | c, r⟩
  · obtain ⟨hlt, -, -⟩ := readUintBE_err_inv hr
    omega
  · obtain ⟨-, hc, -⟩ := readUintBE_ok_inv hr
    subst hc
    simp [PeerAddrs.Read, hr, hbig]

theorem peerAddrs_read_err_cases (p0 : PeerAddrs) (s : List Nat) :
    (PeerAddrs.Read p0 s).err = none ∨ (PeerAddrs.Read p0 s).err = some .eof ∨
      (PeerAddrs.Read p0 s).err = some .invalidPeersCount := by
  rcases hr : readUintBE 4 s with ⟨e | c, r⟩
  · obtain ⟨-, he, -⟩ := readUintBE_err_inv hr
    subst he
    right
    left
    simp [PeerAddrs.Read, hr]
  · by_cases hbig : c > maxPeerAddresses
    · right
      right
      simp [PeerAddrs.Read, hr, hbig]
    · rcases hl : (readPeersLoop c p0.peers r).err with _ | e
      · left
        simp [PeerAddrs.Read, hr, hbig, hl]
      · right
        left
        have he := readPeersLoop_err_eof c p0.peers r e hl
        subst he
        simp [PeerAddrs.Read, hr, hbig, hl]

/-- Claim C3 (amended): for every message variant, a successful Read
consumes exactly the bytes its wire format requires, never more than
the declared body length, and Read fails rather than silently
truncating whenever the body is malformed or the bounded reader is
exhausted before the bytes the format requires are available.
Ping (and Pong, which shares its decoder) consumes exactly 16 bytes
and fails below 16; GetPeerAddrs consumes exactly 4 and fails below 4;
PeerError consumes exactly 12 plus its declared message length, fails
with eof when the reader is exhausted before that, and fails on the
malformed oversized declaration; PeerAddrs on success appends exactly
the declared number of entries and consumes exactly 4 plus 1 + address
+ 2 bytes per entry, fails with eof below the count prefix, fails on
the malformed oversized count, and has no other failure than eof, so
an exhausted reader can never look like success.  A successful or
failing body decode makes ReadMessage report header width plus the
declared length even though the stream consumption can be less when
the declared length exceeds the format size. -/
theorem c3_read_consumption_amended :
    (∀ (p0 : Ping) (s : List Nat), (Ping.Read p0 s).err = none →
      (Ping.Read p0 s).rest = s.drop 16 ∧ 16 ≤ s.length) ∧
    (∀ (p0 : Ping) (s : List Nat), s.length < 16 → (Ping.Read p0 s).err = some .eof) ∧
    (∀ (g0 : GetPeerAddrs) (s : List Nat), (GetPeerAddrs.Read g0 s).err = none →
      (GetPeerAddrs.Read g0 s).rest = s.drop 4 ∧ 4 ≤ s.length) ∧
    (∀ (g0 : GetPeerAddrs) (s : List Nat), s.length < 4 →
      (GetPeerAddrs.Read g0 s).err = some .eof) ∧
    (∀ (p0 : PeerError) (s : List Nat), (PeerError.Read p0 s).err = none →
      (PeerError.Read p0 s).rest = s.drop (12 + beVal ((s.drop 4).take 8)) ∧
        12 + beVal ((s.drop 4).take 8) ≤ s.length) ∧
    (∀ (p0 : PeerError) (s : List Nat),
      s.length < 12 ∨ (12 ≤ s.length ∧ beVal ((s.drop 4).take 8) ≤ maxStringLength ∧
        s.length < 12 + beVal ((s.drop 4).take 8)) →
      (PeerError.Read p0 s).err = some .eof) ∧
    (∀ (p0 : PeerError) (s : List Nat), 12 ≤ s.length →
      beVal ((s.drop 4).take 8) > maxStringLength →
      (PeerError.Read p0 s).err = some .invalidMessageLen) ∧
    (∀ (p0 : PeerAddrs) (s : List Nat), (PeerAddrs.Read p0 s).err = none →
      ∃ new, (PeerAddrs.Read p0 s).val = { peers := p0.peers ++ new } ∧
        new.length = beVal (s.take 4) ∧
        (PeerAddrs.Read p0 s).rest =
          s.drop (4 + (new.map (fun a => 3 + a.IP.length)).sum) ∧
        4 + (new.map (fun a => 3 + a.IP.length)).sum ≤ s.length) ∧
    (∀ (p0 : PeerAddrs) (s : List Nat), s.length < 4 →
      (PeerAddrs.Read p0 s).err = some .eof) ∧
    (∀ (p0 : PeerAddrs) (s : List Nat), 4 ≤ s.length →
      beVal (s.take 4) > maxPeerAddresses →
      (PeerAddrs.Read p0 s).err = some .invalidPeersCount) ∧
    (∀ (p0 : PeerAddrs) (s : List Nat), (PeerAddrs.Read p0 s).err = none ∨
      (PeerAddrs.Read p0 s).err = some .eof ∨
      (PeerAddrs.Read p0 s).err = some .invalidPeersCount) ∧
    (∀ (msg : Msg) (L : Nat) (body : List Nat), L < 2 ^ 64 → L ≤ MaxMsgLen →
      (ReadMessage msg (MagicCode ++ msg.Typ :: beBytes 8 L ++ body)).n = HeaderLen + L ∧
      ∃ c2 ≤ L, (ReadMessage msg (MagicCode ++ msg.Typ :: beBytes 8 L ++ body)).rest =
        body.drop c2) := by
  refine ⟨fun p0 s h => Ping.Read_ok_rest p0 s h,
    fun p0 s h => Ping.Read_err_short p0 s h,
    fun g0 s h => getPeerAddrs_read_ok_rest g0 s h,
    fun g0 s h => getPeerAddrs_read_err_short g0 s h,
    fun p0 s h => peerError_read_ok_rest p0 s h,
    fun p0 s h => peerError_read_err_exhausted p0 s h,
    fun p0 s h12 hbig => peerError_read_err_oversize p0 s h12 hbig,
    fun p0 s h => peerAddrs_read_ok_char p0 s h,
    fun p0 s h => peerAddrs_read_err_short p0 s h,
    fun p0 s h4 hbig => peerAddrs_read_err_oversize p0 s h4 hbig,
    fun p0 s => peerAddrs_read_err_cases p0 s, ?_⟩
  intro msg L body hL hok
  rw [ReadMessage_body msg L body hL hok]
  refine ⟨rfl,
    (body.take L).length - (Msg.Read msg (body.take L)).rest.length, ?_, rfl⟩
  calc (body.take L).length - (Msg.Read msg (body.take L)).rest.length
      ≤ (body.take L).length := Nat.sub_le _ _
    _ ≤ L := by
        rw [List.length_take]
        exact Nat.min_le_left _ _

/-- Claim C3 witness: the amended statement at concrete inputs for
every variant: full and empty Ping and GetPeerAddrs bodies, a complete,
a truncated and an oversized PeerError body, a complete, a truncated
and an oversized PeerAddrs body, and a ReadMessage whose accepted
header declares 16 bytes. -/
theorem c3_read_consumption_amended_witness :
    ((Ping.Read { TotalDifficulty := 0, Height := 0 } (List.replicate 16 0)).rest =
        (List.replicate 16 0).drop 16 ∧ 16 ≤ (List.replicate 16 0).length) ∧
    (Ping.Read { TotalDifficulty := 0, Height := 0 } []).err = some .eof ∧
    ((GetPeerAddrs.Read { Capabilities := 0 } [0, 0, 0, 9]).rest =
        [0, 0, 0, 9].drop 4 ∧ 4 ≤ [0, 0, 0, 9].length) ∧
    (GetPeerAddrs.Read { Capabilities := 0 } []).err = some .eof ∧
    ((PeerError.Read { Code := 0, Message := [] }
        [0, 0, 0, 1, 0, 0, 0, 0, 0, 0, 0, 0]).rest =
        [0, 0, 0, 1, 0, 0, 0, 0, 0, 0, 0, 0].drop
          (12 + beVal (([0, 0, 0, 1, 0, 0, 0, 0, 0, 0, 0, 0].drop 4).take 8)) ∧
      12 + beVal (([0, 0, 0, 1, 0, 0, 0, 0, 0, 0, 0, 0].drop 4).take 8) ≤
        [0, 0, 0, 1, 0, 0, 0, 0, 0, 0, 0, 0].length) ∧
    (PeerError.Read { Code := 0, Message := [] } []).err = some .eof ∧
    (PeerError.Read { Code := 0, Message := [] }
      [0, 0, 0, 1, 0, 0, 0, 0, 0, 0, 4, 1]).err = some .invalidMessageLen ∧
    (∃ new, (PeerAddrs.Read { peers := [] }
        [0, 0, 0, 1, 0, 1, 2, 3, 4, 0, 80]).val = { peers := [] ++ new } ∧
      new.length = beVal ([0, 0, 0, 1, 0, 1, 2, 3, 4, 0, 80].take 4) ∧
      (PeerAddrs.Read { peers := [] } [0, 0, 0, 1, 0, 1, 2, 3, 4, 0, 80]).rest =
        [0, 0, 0, 1, 0, 1, 2, 3, 4, 0, 80].drop
          (4 + (new.map (fun a => 3 + a.IP.length)).sum) ∧
      4 + (new.map (fun a => 3 + a.IP.length)).sum ≤
        [0, 0, 0, 1, 0, 1, 2, 3, 4, 0, 80].length) ∧
    (PeerAddrs.Read { peers := [] } []).err = some .eof ∧
    (PeerAddrs.Read { peers := [] } [0, 0, 1, 2]).err = some .invalidPeersCount ∧
    ((PeerAddrs.Read { peers := [] } []).err = none ∨
      (PeerAddrs.Read { peers := [] } []).err = some .eof ∨
      (PeerAddrs.Read { peers := [] } []).err = some .invalidPeersCount) ∧
    ((ReadMessage (.ping { TotalDifficulty := 0, Height := 0 })
        (MagicCode ++ Msg.Typ (.ping { TotalDifficulty := 0, Height := 0 }) ::
          beBytes 8 16 ++ [])).n = HeaderLen + 16 ∧
      ∃ c2 ≤ 16, (ReadMessage (.ping { TotalDifficulty := 0, Height := 0 })
        (MagicCode ++ Msg.Typ (.ping { TotalDifficulty := 0, Height := 0 }) ::
          beBytes 8 16 ++ [])).rest = List.drop c2 []) := by
  obtain ⟨h1, h2, h3, h4, h5, h6, h7, h8, h9, h10, h11, h12⟩ := c3_read_consumption_amended
  exact ⟨h1 _ _ (by decide), h2 _ [] (by decide), h3 _ _ (by decide), h4 _ [] (by decide),
    h5 _ _ (by decide), h6 _ [] (Or.inl (by decide)), h7 _ _ (by decide) (by decide),
    h8 _ _ (by decide), h9 _ [] (by decide), h10 _ _ (by decide) (by decide),
    h11 _ [], h12 _ 16 [] (by norm_num) (by norm_num [MaxMsgLen])⟩

/-- Claim C5: the header decoder reads exactly 2 bytes for the magic
marker; when they differ from the fixed constant it fails with the
invalid-magic error, the reader is left positioned right after those 2
bytes, and the type and length fields of the header are not read
(they keep their prior values). -/
theorem c5_invalid_magic_rejected (h0 : Header) (v : List Nat)
    (hlen : 2 ≤ v.length) (hbad : v.take 2 ≠ MagicCode) :
    Header.Read h0 v =
      ⟨{ h0 with magic := v.take 2 }, v.drop 2, some .invalidMagic⟩ := by
  have hfull : readFull 2 v = (.ok (v.take 2), v.drop 2) := by
    unfold readFull
    rw [if_pos hlen]
  have hvm : Header.ValidateMagic { h0 with magic := v.take 2 } = false := by
    rcases v with _ | ⟨a, _ | ⟨b, rest⟩⟩
    · simp at hlen
    · simp at hlen
    · by_cases ha : a = 30
      · by_cases hb : b = 197
        · subst ha
          subst hb
          simp [MagicCode] at hbad
        · simp [Header.ValidateMagic, hb]
      · simp [Header.ValidateMagic, ha]
  simp [Header.Read, hfull, hvm]

/-- Claim C5 witness: a 3-byte reader with a wrong magic is rejected
with exactly one byte left after the 2 magic bytes. -/
theorem c5_invalid_magic_rejected_witness :
    Header.Read { magic := [0, 0], Typ := 0, Len := 0 } [0, 0, 5] =
      ⟨{ magic := [0, 0], Typ := 0, Len := 0 }, [5], some .invalidMagic⟩ := by
  have h := c5_invalid_magic_rejected { magic := [0, 0], Typ := 0, Len := 0 } [0, 0, 5]
    (by decide) (by decide)
  simpa using h

/-- Claim C6: a successfully decoded header whose type tag differs
from the expected message type makes ReadMessage fail with the
unexpected-type error, report HeaderLen bytes read, and leave the whole
body unread on the stream. -/
theorem c6_unexpected_type_rejected (msg : Msg) (t L : Nat) (body : List Nat)
    (ht : t < 256) (hL : L < 2 ^ 64) (hne : t ≠ msg.Typ) :
    ReadMessage msg (MagicCode ++ t :: beBytes 8 L ++ body) =
      ⟨msg, HeaderLen, body, some .unexpectedType⟩ := by
  have hb : t < 256 := ht
  exact ReadMessage_mismatch msg t L body hL hne

/-- Claim C6 witness: a Ping-tagged header read with a Pong decoder at
concrete values; the 2-byte body stays on the stream. -/
theorem c6_unexpected_type_rejected_witness :
    ReadMessage (.pong { TotalDifficulty := 0, Height := 0 })
      (MagicCode ++ msgTypePing :: beBytes 8 16 ++ [7, 7]) =
      ⟨.pong { TotalDifficulty := 0, Height := 0 }, HeaderLen, [7, 7],
        some .unexpectedType⟩ :=
  c6_unexpected_type_rejected _ msgTypePing 16 [7, 7] (by norm_num [msgTypePing])
    (by norm_num) (by decide)

/-- Claim C7, counterexample: decoding is not all-or-nothing on the
receiver value.  A PeerError decode that fails the message-length
ceiling leaves the already-read code (7) in the value, and a PeerAddrs
decode that hits end of stream inside the second entry leaves the first
decoded entry appended to the peer list. -/
theorem c7_allornothing_counterexample :
    ((PeerError.Read { Code := 0, Message := [] }
        [0, 0, 0, 7, 0, 0, 0, 0, 0, 0, 4, 1]).err = some .invalidMessageLen ∧
      (PeerError.Read { Code := 0, Message := [] }
        [0, 0, 0, 7, 0, 0, 0, 0, 0, 0, 4, 1]).val.Code = 7 ∧
      (PeerError.Read { Code := 0, Message := [] }
        [0, 0, 0, 7, 0, 0, 0, 0, 0, 0, 4, 1]).val ≠ { Code := 0, Message := [] }) ∧
    ((PeerAddrs.Read { peers := [] } [0, 0, 0, 2, 0, 1, 2, 3, 4, 0, 80]).err =
        some .eof ∧
      (PeerAddrs.Read { peers := [] } [0, 0, 0, 2, 0, 1, 2, 3, 4, 0, 80]).val =
        { peers := [{ IP := [1, 2, 3, 4], Port := 80 }] }) := by
  exact ⟨⟨by decide, by decide, by decide⟩, by decide, by decide⟩

/-- Claim C7 (amended): whenever a Read fails, the error is returned to
the caller, so the value is never presented as valid; the value itself,
however, may keep fields populated before the failure: a PeerError
rejected on the length ceiling keeps the decoded code with the old
message, and a PeerAddrs interrupted mid-list keeps the entries already
appended. -/
theorem c7_error_surfaced_amended :
    (∀ (p : PeerError) (c L : Nat) (tl : List Nat), c < 2 ^ 32 → L < 2 ^ 64 →
      L > maxStringLength →
      (PeerError.Read p (beBytes 4 c ++ beBytes 8 L ++ tl)).err =
          some .invalidMessageLen ∧
        (PeerError.Read p (beBytes 4 c ++ beBytes 8 L ++ tl)).val.Code = c ∧
        (PeerError.Read p (beBytes 4 c ++ beBytes 8 L ++ tl)).val.Message =
          p.Message) ∧
    (∀ (p : PeerAddrs) (ip : List Nat) (port : Nat), ip.length = 4 → port < 2 ^ 16 →
      (PeerAddrs.Read p (beBytes 4 2 ++ 0 :: (ip ++ beBytes 2 port))).err =
          some .eof ∧
        (PeerAddrs.Read p (beBytes 4 2 ++ 0 :: (ip ++ beBytes 2 port))).val =
          { peers := p.peers ++ [{ IP := ip, Port := port }] }) := by
  constructor
  · intro p c L tl hc hL hbig
    rw [PeerError.Read_oversized p c L tl hc hL hbig]
    exact ⟨rfl, rfl, rfl⟩
  · intro p ip port h4 hport
    rw [PeerAddrs.Read_truncated p ip port h4 hport]
    exact ⟨rfl, rfl⟩

/-- Claim C7 witness: the amended statement at concrete inputs. -/
theorem c7_error_surfaced_amended_witness :
    ((PeerError.Read { Code := 0, Message := [] }
        (beBytes 4 7 ++ beBytes 8 1025 ++ [])).err = some .invalidMessageLen ∧
      (PeerError.Read { Code := 0, Message := [] }
        (beBytes 4 7 ++ beBytes 8 1025 ++ [])).val.Code = 7 ∧
      (PeerError.Read { Code := 0, Message := [] }
        (beBytes 4 7 ++ beBytes 8 1025 ++ [])).val.Message = []) ∧
    ((PeerAddrs.Read { peers := [] }
        (beBytes 4 2 ++ 0 :: ([1, 2, 3, 4] ++ beBytes 2 80))).err = some .eof ∧
      (PeerAddrs.Read { peers := [] }
        (beBytes 4 2 ++ 0 :: ([1, 2, 3, 4] ++ beBytes 2 80))).val =
        { peers := [] ++ [{ IP := [1, 2, 3, 4], Port := 80 }] }) := by
  exact ⟨c7_error_surfaced_amended.1 { Code := 0, Message := [] } 7 1025 []
      (by norm_num) (by norm_num) (by norm_num [maxStringLength]),
    c7_error_surfaced_amended.2 { peers := [] } [1, 2, 3, 4] 80 (by decide) (by decide)⟩

/-- Claim C8: encoding Ping with total difficulty 1000 and height 42
produces exactly the 2 magic bytes, the ping tag 0x00, the big-endian
length 16, then 1000 and 42 as 8-byte big-endian words, 27 bytes in
all; decoding those bytes into an empty Ping restores both fields and
consumes the whole stream. -/
theorem c8_ping_concrete_scenario :
    WriteMessage (.ping { TotalDifficulty := 1000, Height := 42 }) =
      some ([30, 197, 0, 0, 0, 0, 0, 0, 0, 0, 16,
        0, 0, 0, 0, 0, 0, 3, 232, 0, 0, 0, 0, 0, 0, 0, 42], 27) ∧
    ReadMessage (.ping { TotalDifficulty := 0, Height := 0 })
      [30, 197, 0, 0, 0, 0, 0, 0, 0, 0, 16,
        0, 0, 0, 0, 0, 0, 3, 232, 0, 0, 0, 0, 0, 0, 0, 42] =
      ⟨.ping { TotalDifficulty := 1000, Height := 42 }, 27, [], none⟩ := by
  exact ⟨by decide, by decide⟩

/-- Claim C9: WriteMessage frames every message under a header whose
length field is the byte length of the body produced by Bytes, and
reports HeaderLen plus that body length as the bytes written. -/
theorem c9_write_header_length (msg : Msg) (data : List Nat)
    (h : msg.Bytes = some data) :
    WriteMessage msg =
      some (Header.Write { magic := MagicCode, Typ := msg.Typ, Len := data.length } ++
        data, HeaderLen + data.length) := by
  simp [WriteMessage, h, Nat.add_comm]

/-- Claim C9 witness: the framing equation at a concrete Ping. -/
theorem c9_write_header_length_witness :
    WriteMessage (.ping { TotalDifficulty := 1, Height := 2 }) =
      some (Header.Write
          { magic := MagicCode,
            Typ := Msg.Typ (.ping { TotalDifficulty := 1, Height := 2 }),
            Len := (Ping.Bytes { TotalDifficulty := 1, Height := 2 }).length } ++
        Ping.Bytes { TotalDifficulty := 1, Height := 2 },
        HeaderLen + (Ping.Bytes { TotalDifficulty := 1, Height := 2 }).length) :=
  c9_write_header_length (.ping { TotalDifficulty := 1, Height := 2 })
    (Ping.Bytes { TotalDifficulty := 1, Height := 2 }) rfl

/-- Claim C10: after a valid, type-matching, size-accepted header, the
error of the body decoder is returned together with a byte count of
header width plus the declared length, independent of how much of the
body the decoder consumed. -/
theorem c10_failed_body_reports_declared (msg : Msg) (L : Nat) (body : List Nat)
    (e : PErr) (hL : L < 2 ^ 64) (hok : L ≤ MaxMsgLen)
    (hfail : (Msg.Read msg (body.take L)).err = some e) :
    (ReadMessage msg (MagicCode ++ msg.Typ :: beBytes 8 L ++ body)).err = some e ∧
    (ReadMessage msg (MagicCode ++ msg.Typ :: beBytes 8 L ++ body)).n =
      HeaderLen + L := by
  rw [ReadMessage_body msg L body hL hok]
  exact ⟨hfail, rfl⟩

/-- Claim C10 witness: a Ping body declared as 16 bytes but absent
makes the decoder fail with eof while ReadMessage still reports 27
bytes. -/
theorem c10_failed_body_reports_declared_witness :
    (ReadMessage (.ping { TotalDifficulty := 0, Height := 0 })
        (MagicCode ++ Msg.Typ (.ping { TotalDifficulty := 0, Height := 0 }) ::
          beBytes 8 16 ++ [])).err = some .eof ∧
    (ReadMessage (.ping { TotalDifficulty := 0, Height := 0 })
        (MagicCode ++ Msg.Typ (.ping { TotalDifficulty := 0, Height := 0 }) ::
          beBytes 8 16 ++ [])).n = HeaderLen + 16 :=
  c10_failed_body_reports_declared _ 16 [] .eof (by norm_num)
    (by norm_num [MaxMsgLen]) (by decide)
